import Mathlib

/-!
Verification of the Continuous Double Auction matching engine
(`services/auction_engine.py`).

The development shallowly embeds the engine in Lean:

* `OrderBookEntry` and its comparison `OrderBookEntry.lt` mirror the
  `@dataclass OrderBookEntry` and its `__lt__`.
* `siftdownLoop`, `siftupLoop`, `heappush`, `heappop` embed CPython's
  `heapq._siftdown`, `heapq._siftup`, `heapq.heappush`, `heapq.heappop`
  (list-based binary min-heap), which the engine uses for its per-asset
  priority containers.
* `AuctionState`, `add_intent`, `try_match`, `match_continuously`,
  `load_intents_from_indexer`, `get_order_book_snapshot` embed the
  corresponding `AuctionEngine` methods; Python dicts become ordered
  association lists, mutation becomes explicit state passing.
* `create_match_onchain` embeds the settlement submission with the
  external web3 boundary abstracted as an input (`ChainOutcome`).

Machine integers: Python's `int` is unbounded, so prices, quantities and
timestamps are `Int`.  Python's floor division `//` is `Int.fdiv`.
-/

open scoped List

/-- Embeds `IntentType` (enum with values "bid", "ask"). -/
inductive IntentType where
  | BID
  | ASK
deriving DecidableEq, Repr

/-- Embeds the `OrderBookEntry` dataclass. -/
structure OrderBookEntry where
  intent_id : String
  actor : String
  price : Int
  quantity : Int
  intent_type : IntentType
  timestamp : Int
  settlement_asset : String
  ap2_mandate_id : String
deriving DecidableEq, Repr

instance : Inhabited OrderBookEntry :=
  ⟨⟨"", "", 0, 0, IntentType.BID, 0, "", ""⟩⟩

/-- Embeds `OrderBookEntry.__lt__`: bids compare by higher price first,
asks by lower price first.  Note the comparison looks only at `price`;
no tie-break field is consulted. -/
def OrderBookEntry.lt (a b : OrderBookEntry) : Bool :=
  match a.intent_type with
  | IntentType.BID => decide (a.price > b.price)
  | IntentType.ASK => decide (a.price < b.price)

/-- Embeds CPython `heapq._siftdown(heap, startpos, pos)` with
`newitem = heap[pos]` made explicit (the slot at `pos` is rewritten on
every path, so carrying `newitem` as a parameter reproduces the net
effect of the in-place loop exactly).  The out-of-bounds parent branch is
unreachable whenever `pos < heap.length`. -/
def siftdownLoop (lt : α → α → Bool) (heap : List α) (startpos pos : Nat)
    (newitem : α) : List α :=
  if hpos : startpos < pos then
    let parentpos := (pos - 1) / 2
    if hp : parentpos < heap.length then
      let parent := heap.get ⟨parentpos, hp⟩
      if lt newitem parent then
        siftdownLoop lt (heap.set pos parent) startpos parentpos newitem
      else
        heap.set pos newitem
    else
      heap.set pos newitem
  else
    heap.set pos newitem
termination_by pos
decreasing_by
  omega

/-- Embeds the loop of CPython `heapq._siftup(heap, pos)`: the hole at
`pos` is moved down to a leaf, always towards the smaller child, then the
trailing `heap[pos] = newitem; _siftdown(heap, startpos, pos)` runs.
`endpos` is the (constant) heap length, passed explicitly. -/
def siftupLoop (lt : α → α → Bool) (endpos : Nat) (heap : List α)
    (startpos pos : Nat) (newitem : α) : List α :=
  let childpos := 2 * pos + 1
  if hc : childpos < endpos then
    let rightpos := childpos + 1
    let childpos2 :=
      if rightpos < endpos ∧
          lt (heap.getD childpos newitem) (heap.getD rightpos newitem) = false
      then rightpos else childpos
    siftupLoop lt endpos (heap.set pos (heap.getD childpos2 newitem))
      startpos childpos2 newitem
  else
    siftdownLoop lt (heap.set pos newitem) startpos pos newitem
termination_by endpos - pos
decreasing_by
  split <;> omega

/-- Embeds `heapq.heappush`: append, then sift the new item up towards
the root. -/
def heappush (lt : α → α → Bool) (heap : List α) (item : α) : List α :=
  siftdownLoop lt (heap ++ [item]) 0 heap.length item

/-- Embeds `heapq.heappop`: pop the last element, move it into the root
slot, sift it down; returns `none` where Python raises `IndexError`. -/
def heappop (lt : α → α → Bool) : List α → Option (α × List α)
  | [] => none
  | [x] => some (x, [])
  | x :: y :: xs =>
    let rest := x :: (y :: xs).dropLast
    let lastelt := (y :: xs).getLast (by simp)
    some (x, siftupLoop lt rest.length (rest.set 0 lastelt) 0 0 lastelt)

/-- Sanity check against CPython: pushing 5, 3, 4 yields the layout
`[3, 5, 4]`, exactly as `heapq.heappush` does. -/
theorem heappush_sanity :
    heappush (fun a b : Nat => decide (a < b))
      (heappush (fun a b => decide (a < b))
        (heappush (fun a b => decide (a < b)) [] 5) 3) 4 = [3, 5, 4] := by
  simp [heappush, siftdownLoop]

/-- Sanity check against CPython: popping `[3, 5, 4]` returns the root 3
and leaves the layout `[4, 5]`, exactly as `heapq.heappop` does. -/
theorem heappop_sanity :
    heappop (fun a b : Nat => decide (a < b)) [3, 5, 4] =
      some (3, [4, 5]) := by
  simp [heappop, siftupLoop, siftdownLoop]

/-! ### Permutation facts about the heap primitives -/

theorem perm_set_cons (l : List α) (i : Nat) (hi : i < l.length) (a : α) :
    l.get ⟨i, hi⟩ :: l.set i a ~ a :: l := by
  induction l generalizing i with
  | nil => simp at hi
  | cons x xs ih =>
    cases i with
    | zero => simpa using List.Perm.swap a x xs
    | succ n =>
      have hn : n < xs.length := by simpa using hi
      calc (x :: xs).get ⟨n + 1, hi⟩ :: (x :: xs).set (n + 1) a
          = xs.get ⟨n, hn⟩ :: x :: xs.set n a := by simp
        _ ~ x :: xs.get ⟨n, hn⟩ :: xs.set n a := List.Perm.swap x _ _
        _ ~ x :: a :: xs := (ih n hn).cons x
        _ ~ a :: x :: xs := List.Perm.swap a x xs

theorem perm_set_set (l : List α) (i j : Nat) (hi : i < l.length)
    (hj : j < l.length) (hne : i ≠ j) (a : α) :
    (l.set i (l.get ⟨j, hj⟩)).set j a ~ l.set i a := by
  have hj2 : j < (l.set i (l.get ⟨j, hj⟩)).length := by simpa using hj
  have hget : (l.set i (l.get ⟨j, hj⟩)).get ⟨j, hj2⟩ = l.get ⟨j, hj⟩ := by
    simp only [List.get_eq_getElem]
    exact List.getElem_set_ne hne hj2
  have h1 := perm_set_cons (l.set i (l.get ⟨j, hj⟩)) j hj2 a
  rw [hget] at h1
  have h2 := perm_set_cons l i hi (l.get ⟨j, hj⟩)
  have h3 := perm_set_cons l i hi a
  have main :
      l.get ⟨i, hi⟩ :: l.get ⟨j, hj⟩ :: (l.set i (l.get ⟨j, hj⟩)).set j a
        ~ l.get ⟨i, hi⟩ :: l.get ⟨j, hj⟩ :: l.set i a := by
    calc l.get ⟨i, hi⟩ :: l.get ⟨j, hj⟩ :: (l.set i (l.get ⟨j, hj⟩)).set j a
        ~ l.get ⟨i, hi⟩ :: a :: l.set i (l.get ⟨j, hj⟩) := h1.cons _
      _ ~ a :: l.get ⟨i, hi⟩ :: l.set i (l.get ⟨j, hj⟩) := List.Perm.swap _ _ _
      _ ~ a :: l.get ⟨j, hj⟩ :: l := h2.cons a
      _ ~ l.get ⟨j, hj⟩ :: a :: l := List.Perm.swap _ _ _
      _ ~ l.get ⟨j, hj⟩ :: l.get ⟨i, hi⟩ :: l.set i a := h3.symm.cons _
      _ ~ l.get ⟨i, hi⟩ :: l.get ⟨j, hj⟩ :: l.set i a := List.Perm.swap _ _ _
  exact main.cons_inv.cons_inv

theorem siftdownLoop_perm_aux (lt : α → α → Bool) (startpos : Nat)
    (newitem : α) (k : Nat) :
    ∀ (pos : Nat) (heap : List α), pos ≤ k → pos < heap.length →
      siftdownLoop lt heap startpos pos newitem ~ heap.set pos newitem := by
  induction k with
  | zero =>
    intro pos heap hk hp
    rw [siftdownLoop]
    split
    · omega
    · exact List.Perm.refl _
  | succ n ih =>
    intro pos heap hk hp
    rw [siftdownLoop]
    split
    · next hpos =>
      dsimp only
      split
      · next hpl =>
        split
        · next hlt =>
          have h1 := ih ((pos - 1) / 2)
            (heap.set pos (heap.get ⟨(pos - 1) / 2, hpl⟩))
            (by omega) (by simpa using hpl)
          exact h1.trans
            (perm_set_set heap pos ((pos - 1) / 2) hp hpl (by omega) newitem)
        · exact List.Perm.refl _
      · exact List.Perm.refl _
    · exact List.Perm.refl _

theorem siftdownLoop_perm (lt : α → α → Bool) (heap : List α)
    (startpos pos : Nat) (newitem : α) (hp : pos < heap.length) :
    siftdownLoop lt heap startpos pos newitem ~ heap.set pos newitem :=
  siftdownLoop_perm_aux lt startpos newitem pos pos heap (Nat.le_refl pos) hp

theorem siftupLoop_perm_aux (lt : α → α → Bool) (startpos : Nat)
    (newitem : α) (k : Nat) :
    ∀ (endpos pos : Nat) (heap : List α), endpos - pos ≤ k →
      endpos ≤ heap.length → pos < heap.length →
      siftupLoop lt endpos heap startpos pos newitem ~ heap.set pos newitem := by
  induction k with
  | zero =>
    intro endpos pos heap hk he hp
    rw [siftupLoop]
    split
    · omega
    · exact (siftdownLoop_perm lt _ startpos pos newitem (by simpa using hp)).trans
        (by rw [List.set_set])
  | succ n ih =>
    intro endpos pos heap hk he hp
    rw [siftupLoop]
    dsimp only
    split
    · next hc =>
      set childpos2 :=
        if 2 * pos + 1 + 1 < endpos ∧
            lt (heap.getD (2 * pos + 1) newitem)
              (heap.getD (2 * pos + 1 + 1) newitem) = false
        then 2 * pos + 1 + 1 else 2 * pos + 1 with hc2
      have hlt2 : childpos2 < endpos := by
        rw [hc2]; split <;> omega
      have hgt : pos < childpos2 := by
        rw [hc2]; split <;> omega
      have hcl : childpos2 < heap.length := Nat.lt_of_lt_of_le hlt2 he
      have hgd : heap.getD childpos2 newitem = heap.get ⟨childpos2, hcl⟩ := by
        simp [List.getD_eq_getElem?_getD, List.getElem?_eq_getElem hcl]
      rw [hgd]
      have h1 := ih endpos childpos2
        (heap.set pos (heap.get ⟨childpos2, hcl⟩))
        (by omega) (by simpa using he) (by simpa using hcl)
      exact h1.trans
        (perm_set_set heap pos childpos2 hp hcl (by omega) newitem)
    · exact (siftdownLoop_perm lt _ startpos pos newitem (by simpa using hp)).trans
        (by rw [List.set_set])

theorem siftupLoop_perm (lt : α → α → Bool) (endpos : Nat) (heap : List α)
    (startpos pos : Nat) (newitem : α) (he : endpos ≤ heap.length)
    (hp : pos < heap.length) :
    siftupLoop lt endpos heap startpos pos newitem ~ heap.set pos newitem :=
  siftupLoop_perm_aux lt startpos newitem (endpos - pos) endpos pos heap
    (Nat.le_refl _) he hp

/-- Pushing an item is, up to permutation, appending it. -/
theorem heappush_perm (lt : α → α → Bool) (heap : List α) (item : α) :
    heappush lt heap item ~ heap ++ [item] := by
  have h := siftdownLoop_perm lt (heap ++ [item]) 0 heap.length item
    (by simp)
  rw [heappush]
  refine h.trans ?_
  rw [List.set_append_right heap.length item (Nat.le_refl _)]
  simp

theorem heappush_length (lt : α → α → Bool) (heap : List α) (item : α) :
    (heappush lt heap item).length = heap.length + 1 := by
  have := (heappush_perm lt heap item).length_eq
  simpa using this

/-- The strict rest of a heap after a pop (Python mutates in place; a
popped empty heap is modelled as staying empty). -/
def heappopRest (lt : α → α → Bool) (heap : List α) : List α :=
  match heappop lt heap with
  | some p => p.2
  | none => []

/-- Popping a nonempty heap returns its root together with the rest. -/
theorem heappop_cons (lt : α → α → Bool) (c : α) (cs : List α) :
    heappop lt (c :: cs) = some (c, heappopRest lt (c :: cs)) := by
  cases cs <;> simp [heappop, heappopRest]

/-- A pop removes exactly the root: the rest is a permutation of the
tail. -/
theorem heappop_perm (lt : α → α → Bool) (c : α) (cs : List α) :
    heappopRest lt (c :: cs) ~ cs := by
  cases cs with
  | nil => simp [heappopRest, heappop]
  | cons y xs =>
    have hne : (y :: xs : List α) ≠ [] := by simp
    simp only [heappopRest, heappop]
    have hp := siftupLoop_perm lt ((c :: (y :: xs).dropLast).length)
      ((c :: (y :: xs).dropLast).set 0 ((y :: xs).getLast hne))
      0 0 ((y :: xs).getLast hne) (by simp) (by simp)
    refine hp.trans ?_
    rw [List.set_set]
    show ((c :: (y :: xs).dropLast).set 0 ((y :: xs).getLast hne)) ~ y :: xs
    have hset : ((c :: (y :: xs).dropLast).set 0 ((y :: xs).getLast hne))
        = (y :: xs).getLast hne :: (y :: xs).dropLast := by simp
    rw [hset]
    refine ((List.perm_append_singleton _ _).symm).trans ?_
    rw [List.dropLast_append_getLast hne]

theorem heappop_perm_length (lt : α → α → Bool) (c : α) (cs : List α) :
    (heappopRest lt (c :: cs)).length = cs.length :=
  (heappop_perm lt c cs).length_eq

/-! ### The binary-heap shape invariant maintained by heapq -/

theorem heapParent_lt {i n : Nat} (h : i < n) : (i - 1) / 2 < n := by omega

theorem get_idx_congr (l : List α) {i j : Nat} (h : i = j)
    (hi : i < l.length) : l.get ⟨i, hi⟩ = l.get ⟨j, h ▸ hi⟩ := by
  subst h
  rfl

/-- The array-heap invariant of CPython `heapq`: no element compares
strictly below (`lt`) the element at its parent index `(i - 1) / 2`. -/
def IsHeap (lt : α → α → Bool) (l : List α) : Prop :=
  ∀ i, (hi : i < l.length) → 0 < i →
    lt (l.get ⟨i, hi⟩) (l.get ⟨(i - 1) / 2, heapParent_lt hi⟩) = false

instance (lt : α → α → Bool) (l : List α) : Decidable (IsHeap lt l) := by
  unfold IsHeap
  infer_instance

/-- Strict-weak-order laws for a heap comparison, restricted to a class
of `good` elements (for the engine: entries of a single intent type,
the only ones that ever share a container). -/
structure HeapLaws (lt : α → α → Bool) (good : α → Prop) : Prop where
  irrefl : ∀ a, good a → lt a a = false
  ltTrans : ∀ a b c, good a → good b → good c →
    lt a b = true → lt b c = true → lt a c = true
  conn : ∀ a b c, good a → good b → good c →
    lt a b = false → lt b c = false → lt a c = false

theorem HeapLaws.asym {lt : α → α → Bool} {good : α → Prop}
    (hl : HeapLaws lt good) (a b : α) (ha : good a) (hb : good b)
    (h : lt a b = true) : lt b a = false := by
  by_contra hcon
  have hba : lt b a = true := by
    cases hlt : lt b a
    · exact absurd hlt hcon
    · rfl
  have := hl.ltTrans a b a ha hb ha h hba
  have := hl.irrefl a ha
  simp_all

theorem HeapLaws.notLtOfGe {lt : α → α → Bool} {good : α → Prop}
    (hl : HeapLaws lt good) (a b c : α) (ha : good a) (hb : good b)
    (hc : good c) (hab : lt a b = false) (hcb : lt c b = true) :
    lt a c = false := by
  by_contra hcon
  have hac : lt a c = true := by
    cases hlt : lt a c
    · exact absurd hlt hcon
    · rfl
  have := hl.ltTrans a c b ha hc hb hac hcb
  simp_all

/-- Filling the hole of a partial heap: if all links away from `pos`
hold, the children of `pos` do not go below `x`, and `x` does not go
below the parent of `pos`, then writing `x` at `pos` yields a heap. -/
theorem isHeap_set_of (lt : α → α → Bool) (heap : List α) (pos : Nat)
    (x : α) (hp : pos < heap.length)
    (hA : ∀ i j, (hi : i < heap.length) → (hj : j < heap.length) → 0 < i →
      j = (i - 1) / 2 → i ≠ pos → j ≠ pos →
      lt (heap.get ⟨i, hi⟩) (heap.get ⟨j, hj⟩) = false)
    (hC : ∀ c, (hc : c < heap.length) → (c - 1) / 2 = pos → 0 < c →
      lt (heap.get ⟨c, hc⟩) x = false)
    (hup : ∀ j, (hj : j < heap.length) → 0 < pos → j = (pos - 1) / 2 →
      lt x (heap.get ⟨j, hj⟩) = false) :
    IsHeap lt (heap.set pos x) := by
  intro i hi h0
  have hi' : i < heap.length := by simpa using hi
  have hpar : (i - 1) / 2 < heap.length := heapParent_lt hi'
  simp only [List.get_eq_getElem]
  rw [List.getElem_set, List.getElem_set]
  by_cases hip : pos = i
  · rw [if_pos hip, if_neg (show ¬pos = (i - 1) / 2 by omega)]
    exact hup ((i - 1) / 2) hpar (by omega) (by omega)
  · rw [if_neg hip]
    by_cases hpp : pos = (i - 1) / 2
    · rw [if_pos hpp]
      exact hC i hi' hpp.symm h0
    · rw [if_neg hpp]
      exact hA i ((i - 1) / 2) hi' hpar h0 rfl (fun h => hip h.symm)
        (fun h => hpp h.symm)

/-- Bubble-up preserves the heap shape: if all links away from the hole
at `pos` hold, the children of the hole do not go below the hole's
grandparent link nor below `x`, then `_siftdown` rebuilds a heap. -/
theorem siftdownLoop_isHeap_aux (lt : α → α → Bool) (good : α → Prop)
    (hl : HeapLaws lt good) (x : α) (hx : good x) (k : Nat) :
    ∀ (pos : Nat) (heap : List α), pos ≤ k → pos < heap.length →
      (∀ y ∈ heap, good y) →
      (∀ i j, (hi : i < heap.length) → (hj : j < heap.length) → 0 < i →
        j = (i - 1) / 2 → i ≠ pos → j ≠ pos →
        lt (heap.get ⟨i, hi⟩) (heap.get ⟨j, hj⟩) = false) →
      (∀ c j, (hc : c < heap.length) → (hj : j < heap.length) →
        (c - 1) / 2 = pos → j = (pos - 1) / 2 → 0 < c → 0 < pos →
        lt (heap.get ⟨c, hc⟩) (heap.get ⟨j, hj⟩) = false) →
      (∀ c, (hc : c < heap.length) → (c - 1) / 2 = pos → 0 < c →
        lt (heap.get ⟨c, hc⟩) x = false) →
      IsHeap lt (siftdownLoop lt heap 0 pos x) := by
  induction k with
  | zero =>
    intro pos heap hk hp hg hA hG hC
    have hpz : pos = 0 := by omega
    subst hpz
    rw [siftdownLoop]
    split
    · omega
    · exact isHeap_set_of lt heap 0 x hp hA hC
        (fun j hj h0 _ => absurd h0 (by omega))
  | succ n ih =>
    intro pos heap hk hp hg hA hG hC
    rw [siftdownLoop]
    split
    · next hpos =>
      dsimp only
      split
      · next hpl =>
        split
        · next hlt =>
          -- recursive step: the hole moves to the parent position
          refine ih ((pos - 1) / 2)
            (heap.set pos (heap.get ⟨(pos - 1) / 2, hpl⟩)) (by omega)
            (by simpa using heapParent_lt hp) ?_ ?_ ?_ ?_
          · intro y hy
            rcases List.mem_or_eq_of_mem_set hy with h | h
            · exact hg y h
            · subst h
              exact hg _ (by simp [List.get_eq_getElem, List.getElem_mem])
          · -- links away from the new hole
            intro i j hi hj h0 hji hip' hjp'
            have hi' : i < heap.length := by simpa using hi
            have hj' : j < heap.length := by simpa using hj
            simp only [List.get_eq_getElem] at hA hG ⊢
            rw [List.getElem_set, List.getElem_set]
            by_cases hipos : pos = i
            · exact absurd (by omega) hjp'
            · rw [if_neg hipos]
              by_cases hjpos : pos = j
              · rw [if_pos hjpos]
                exact hG i ((pos - 1) / 2) hi' hpl (by omega) rfl h0 hpos
              · rw [if_neg hjpos]
                exact hA i j hi' hj' h0 hji (fun h => hipos h.symm)
                  (fun h => hjpos h.symm)
          · -- grandparent links over the new hole
            intro c j hc hj hcp hjp h0c h0p
            have hc' : c < heap.length := by simpa using hc
            have hj' : j < heap.length := by simpa using hj
            simp only [List.get_eq_getElem] at hA ⊢
            rw [List.getElem_set, List.getElem_set]
            rw [if_neg (show ¬pos = j by omega)]
            by_cases hcpos : pos = c
            · rw [if_pos hcpos]
              exact hA ((pos - 1) / 2) j hpl hj' h0p hjp (by omega) (by omega)
            · rw [if_neg hcpos]
              have h1 := hA c ((pos - 1) / 2) hc' hpl h0c (by omega)
                (fun h => hcpos h.symm) (by omega)
              have h2 := hA ((pos - 1) / 2) j hpl hj' h0p hjp (by omega)
                (by omega)
              exact hl.conn _ _ _ (hg _ (List.getElem_mem hc'))
                (hg _ (List.getElem_mem hpl))
                (hg _ (List.getElem_mem hj')) h1 h2
          · -- children of the new hole do not go below the new item
            intro c hc hcp h0c
            have hc' : c < heap.length := by simpa using hc
            simp only [List.get_eq_getElem] at hA ⊢
            rw [List.getElem_set]
            by_cases hcpos : pos = c
            · rw [if_pos hcpos]
              exact hl.asym x _ hx (hg _ (List.getElem_mem hpl)) hlt
            · rw [if_neg hcpos]
              have h1 := hA c ((pos - 1) / 2) hc' hpl h0c (by omega)
                (fun h => hcpos h.symm) (by omega)
              exact hl.notLtOfGe _ _ _ (hg _ (List.getElem_mem hc'))
                (hg _ (List.getElem_mem hpl)) hx h1 hlt
        · next hlt =>
          have hflat : lt x (heap.get ⟨(pos - 1) / 2, hpl⟩) = false := by
            cases h2 : lt x (heap.get ⟨(pos - 1) / 2, hpl⟩)
            · rfl
            · exact absurd h2 hlt
          refine isHeap_set_of lt heap pos x hp hA hC ?_
          intro j hj h0 hjeq
          subst hjeq
          exact hflat
      · next hpl =>
        exfalso
        omega
    · next hpos =>
      exact isHeap_set_of lt heap pos x hp hA hC
        (fun j hj h0 _ => absurd h0 (by omega))

/-- Pushing preserves the heap invariant. -/
theorem heappush_isHeap (lt : α → α → Bool) (good : α → Prop)
    (hl : HeapLaws lt good) (heap : List α) (x : α)
    (hg : ∀ y ∈ heap, good y) (hx : good x) (hh : IsHeap lt heap) :
    IsHeap lt (heappush lt heap x) := by
  rw [heappush]
  refine siftdownLoop_isHeap_aux lt good hl x hx heap.length heap.length
    (heap ++ [x]) (Nat.le_refl _) (by simp) ?_ ?_ ?_ ?_
  · intro y hy
    rcases List.mem_append.mp hy with h | h
    · exact hg y h
    · simp at h
      subst h
      exact hx
  · intro i j hi hj h0 hji hip hjp
    have hi' : i < heap.length := by
      simp at hi
      omega
    have hj' : j < heap.length := by
      simp at hj
      omega
    simp only [List.get_eq_getElem] at hh ⊢
    rw [List.getElem_append_left hi', List.getElem_append_left hj']
    subst hji
    exact hh i hi' h0
  · intro c j hc hj hcp hjp h0c h0p
    exfalso
    simp at hc
    omega
  · intro c hc hcp h0c
    exfalso
    simp at hc
    omega

/-- Hole-down phase of `_siftup` preserves the partial-heap conditions,
finishing through `_siftdown`. -/
theorem siftupLoop_isHeap_aux (lt : α → α → Bool) (good : α → Prop)
    (hl : HeapLaws lt good) (x : α) (hx : good x) (k : Nat) :
    ∀ (endpos pos : Nat) (heap : List α), endpos - pos ≤ k →
      endpos = heap.length → pos < heap.length →
      (∀ y ∈ heap, good y) →
      (∀ i j, (hi : i < heap.length) → (hj : j < heap.length) → 0 < i →
        j = (i - 1) / 2 → i ≠ pos → j ≠ pos →
        lt (heap.get ⟨i, hi⟩) (heap.get ⟨j, hj⟩) = false) →
      (∀ c j, (hc : c < heap.length) → (hj : j < heap.length) →
        (c - 1) / 2 = pos → j = (pos - 1) / 2 → 0 < c → 0 < pos →
        lt (heap.get ⟨c, hc⟩) (heap.get ⟨j, hj⟩) = false) →
      IsHeap lt (siftupLoop lt endpos heap 0 pos x) := by
  induction k with
  | zero =>
    intro endpos pos heap hk he hp hg hA hG
    rw [siftupLoop]
    dsimp only
    split
    · omega
    · next hnc =>
      refine siftdownLoop_isHeap_aux lt good hl x hx pos pos
        (heap.set pos x) (Nat.le_refl _) (by simpa using hp) ?_ ?_ ?_ ?_
      · intro y hy
        rcases List.mem_or_eq_of_mem_set hy with h | h
        · exact hg y h
        · subst h
          exact hx
      · intro i j hi hj h0 hji hip hjp
        have hi' : i < heap.length := by simpa using hi
        have hj' : j < heap.length := by simpa using hj
        simp only [List.get_eq_getElem] at hA ⊢
        rw [List.getElem_set, List.getElem_set,
          if_neg (fun h => hip h.symm), if_neg (fun h => hjp h.symm)]
        exact hA i j hi' hj' h0 hji hip hjp
      · intro c j hc hj hcp hjp h0c h0p
        have hc' : c < heap.length := by simpa using hc
        have hj' : j < heap.length := by simpa using hj
        simp only [List.get_eq_getElem] at hG ⊢
        rw [List.getElem_set, List.getElem_set,
          if_neg (show ¬pos = c by omega), if_neg (show ¬pos = j by omega)]
        exact hG c j hc' hj' hcp hjp h0c h0p
      · intro c hc hcp h0c
        exfalso
        have hc' : c < heap.length := by simpa using hc
        omega
  | succ n ih =>
    intro endpos pos heap hk he hp hg hA hG
    rw [siftupLoop]
    dsimp only
    split
    · next hc =>
      set childpos2 :=
        if 2 * pos + 1 + 1 < endpos ∧
            lt (heap.getD (2 * pos + 1) x)
              (heap.getD (2 * pos + 1 + 1) x) = false
        then 2 * pos + 1 + 1 else 2 * pos + 1 with hc2
      have hlt2 : childpos2 < endpos := by
        rw [hc2]; split <;> omega
      have hgt : pos < childpos2 := by
        rw [hc2]; split <;> omega
      have hpar2 : (childpos2 - 1) / 2 = pos := by
        rw [hc2]; split <;> omega
      have hcl : childpos2 < heap.length := by omega
      have hgd : heap.getD childpos2 x = heap.get ⟨childpos2, hcl⟩ := by
        simp [List.getD_eq_getElem?_getD, List.getElem?_eq_getElem hcl]
      rw [hgd]
      -- the chosen child is not above its sibling
      have hsib : ∀ i, (hi2 : i < heap.length) → 0 < i → (i - 1) / 2 = pos →
          i ≠ childpos2 →
          lt (heap.get ⟨i, hi2⟩) (heap.get ⟨childpos2, hcl⟩) = false := by
        intro i hi2 h0i hpi hine
        by_cases hcond : 2 * pos + 1 + 1 < endpos ∧
            lt (heap.getD (2 * pos + 1) x)
              (heap.getD (2 * pos + 1 + 1) x) = false
        · have hcc : childpos2 = 2 * pos + 1 + 1 := by rw [hc2, if_pos hcond]
          have hieq : i = 2 * pos + 1 := by omega
          have hlb : 2 * pos + 1 < heap.length := by omega
          have hrb : 2 * pos + 1 + 1 < heap.length := by omega
          have hgl : heap.getD (2 * pos + 1) x =
              heap.get ⟨2 * pos + 1, hlb⟩ := by
            simp [List.getD_eq_getElem?_getD, List.getElem?_eq_getElem hlb]
          have hgr : heap.getD (2 * pos + 1 + 1) x =
              heap.get ⟨2 * pos + 1 + 1, hrb⟩ := by
            simp [List.getD_eq_getElem?_getD, List.getElem?_eq_getElem hrb]
          have h2 := hcond.2
          rw [hgl, hgr] at h2
          have e1 : heap.get ⟨i, hi2⟩ = heap.get ⟨2 * pos + 1, hieq ▸ hi2⟩ :=
            get_idx_congr heap hieq hi2
          have e2 : heap.get ⟨childpos2, hcl⟩ =
              heap.get ⟨2 * pos + 1 + 1, hcc ▸ hcl⟩ :=
            get_idx_congr heap hcc hcl
          rw [e1, e2]
          exact h2
        · have hcc : childpos2 = 2 * pos + 1 := by rw [hc2, if_neg hcond]
          have hieq : i = 2 * pos + 1 + 1 := by omega
          have hr2 : 2 * pos + 1 + 1 < endpos := by omega
          have hlb : 2 * pos + 1 < heap.length := by omega
          have hrb : 2 * pos + 1 + 1 < heap.length := by omega
          have hltrue : lt (heap.getD (2 * pos + 1) x)
              (heap.getD (2 * pos + 1 + 1) x) = true := by
            cases h : lt (heap.getD (2 * pos + 1) x)
                (heap.getD (2 * pos + 1 + 1) x) with
            | false => exact absurd ⟨hr2, h⟩ hcond
            | true => rfl
          have hgl : heap.getD (2 * pos + 1) x =
              heap.get ⟨2 * pos + 1, hlb⟩ := by
            simp [List.getD_eq_getElem?_getD, List.getElem?_eq_getElem hlb]
          have hgr : heap.getD (2 * pos + 1 + 1) x =
              heap.get ⟨2 * pos + 1 + 1, hrb⟩ := by
            simp [List.getD_eq_getElem?_getD, List.getElem?_eq_getElem hrb]
          rw [hgl, hgr] at hltrue
          have hasym := hl.asym _ _
            (hg _ (by simp [List.get_eq_getElem, List.getElem_mem]))
            (hg _ (by simp [List.get_eq_getElem, List.getElem_mem])) hltrue
          have e1 : heap.get ⟨i, hi2⟩ =
              heap.get ⟨2 * pos + 1 + 1, hieq ▸ hi2⟩ :=
            get_idx_congr heap hieq hi2
          have e2 : heap.get ⟨childpos2, hcl⟩ =
              heap.get ⟨2 * pos + 1, hcc ▸ hcl⟩ :=
            get_idx_congr heap hcc hcl
          rw [e1, e2]
          exact hasym
      refine ih endpos childpos2
        (heap.set pos (heap.get ⟨childpos2, hcl⟩)) (by omega)
        (by simpa using he) (by simpa using hcl) ?_ ?_ ?_
      · intro y hy
        rcases List.mem_or_eq_of_mem_set hy with h | h
        · exact hg y h
        · subst h
          exact hg _ (by simp [List.get_eq_getElem, List.getElem_mem])
      · -- links away from the new hole at childpos2
        intro i j hi hj h0 hji hip' hjp'
        have hi' : i < heap.length := by simpa using hi
        have hj' : j < heap.length := by simpa using hj
        simp only [List.get_eq_getElem] at hA hG ⊢
        rw [List.getElem_set, List.getElem_set]
        by_cases hipos : pos = i
        · -- the old hole now holds the promoted child
          rw [if_pos hipos]
          have hjne : ¬pos = j := by omega
          rw [if_neg hjne]
          have := hG childpos2 j hcl hj' hpar2 (by omega) (by omega) (by omega)
          simp only [List.get_eq_getElem] at this
          exact this
        · rw [if_neg hipos]
          by_cases hjpos : pos = j
          · -- sibling of the promoted child against the promoted child
            rw [if_pos hjpos]
            have hs := hsib i hi' h0 (by omega) (fun h => hip' h)
            simp only [List.get_eq_getElem] at hs
            exact hs
          · rw [if_neg hjpos]
            exact hA i j hi' hj' h0 hji (fun h => hipos h.symm)
              (fun h => hjpos h.symm)
      · -- grandparent links over the new hole at childpos2
        intro c j hc hj hcp hjp h0c h0p
        have hc' : c < heap.length := by simpa using hc
        have hj' : j < heap.length := by simpa using hj
        have hjpos : j = pos := by omega
        simp only [List.get_eq_getElem] at hA ⊢
        rw [List.getElem_set, List.getElem_set]
        rw [if_neg (show ¬pos = c by omega), if_pos hjpos.symm]
        have := hA c childpos2 hc' hcl h0c (by omega)
          (by omega) (by omega)
        simp only [List.get_eq_getElem] at this
        exact this
    · next hnc =>
      refine siftdownLoop_isHeap_aux lt good hl x hx pos pos
        (heap.set pos x) (Nat.le_refl _) (by simpa using hp) ?_ ?_ ?_ ?_
      · intro y hy
        rcases List.mem_or_eq_of_mem_set hy with h | h
        · exact hg y h
        · subst h
          exact hx
      · intro i j hi hj h0 hji hip hjp
        have hi' : i < heap.length := by simpa using hi
        have hj' : j < heap.length := by simpa using hj
        simp only [List.get_eq_getElem] at hA ⊢
        rw [List.getElem_set, List.getElem_set,
          if_neg (fun h => hip h.symm), if_neg (fun h => hjp h.symm)]
        exact hA i j hi' hj' h0 hji hip hjp
      · intro c j hc hj hcp hjp h0c h0p
        have hc' : c < heap.length := by simpa using hc
        have hj' : j < heap.length := by simpa using hj
        simp only [List.get_eq_getElem] at hG ⊢
        rw [List.getElem_set, List.getElem_set,
          if_neg (show ¬pos = c by omega), if_neg (show ¬pos = j by omega)]
        exact hG c j hc' hj' hcp hjp h0c h0p
      · intro c hc hcp h0c
        exfalso
        have hc' : c < heap.length := by simpa using hc
        omega

theorem heappush_mem (lt : α → α → Bool) (heap : List α) (x : α) :
    ∀ y ∈ heappush lt heap x, y ∈ heap ∨ y = x := by
  intro y hy
  have := (heappush_perm lt heap x).mem_iff.mp hy
  simpa using this

theorem heappopRest_mem (lt : α → α → Bool) (l : List α) :
    ∀ y ∈ heappopRest lt l, y ∈ l := by
  cases l with
  | nil => simp [heappopRest, heappop]
  | cons c cs =>
    intro y hy
    exact List.mem_cons_of_mem c ((heappop_perm lt c cs).mem_iff.mp hy)

/-- Popping preserves the heap invariant on the remaining elements. -/
theorem heappop_isHeap (lt : α → α → Bool) (good : α → Prop)
    (hl : HeapLaws lt good) (l : List α) (hg : ∀ y ∈ l, good y)
    (hh : IsHeap lt l) : IsHeap lt (heappopRest lt l) := by
  cases l with
  | nil =>
    intro i hi h0
    simp [heappopRest, heappop] at hi
  | cons x l2 =>
    cases l2 with
    | nil =>
      intro i hi h0
      simp [heappopRest, heappop] at hi
    | cons y xs =>
      have hne : (y :: xs : List α) ≠ [] := by simp
      have hlast : good ((y :: xs).getLast hne) :=
        hg _ (List.mem_cons_of_mem x (List.getLast_mem hne))
      simp only [heappopRest, heappop, List.set_cons_zero]
      have hlen : (y :: xs).dropLast.length = xs.length := by simp
      refine siftupLoop_isHeap_aux lt good hl ((y :: xs).getLast hne) hlast
        (x :: (y :: xs).dropLast).length (x :: (y :: xs).dropLast).length 0
        ((y :: xs).getLast hne :: (y :: xs).dropLast)
        (by omega) (by simp) (by simp) ?_ ?_ ?_
      · intro z hz
        rcases List.mem_cons.mp hz with h | h
        · subst h
          exact hlast
        · exact hg _ (List.mem_cons_of_mem x
            ((List.dropLast_sublist (y :: xs)).subset h))
      · intro i j hi hj h0 hji hip hjp
        subst hji
        have hval : ∀ m, (hm2 : m < (x :: y :: xs).length) →
            (hm : m < ((y :: xs).getLast hne :: (y :: xs).dropLast).length) →
            0 < m →
            ((y :: xs).getLast hne :: (y :: xs).dropLast).get ⟨m, hm⟩ =
              (x :: y :: xs).get ⟨m, hm2⟩ := by
          intro m hm2 hm h0m
          obtain ⟨k, rfl⟩ : ∃ k, m = k + 1 := ⟨m - 1, by omega⟩
          simp only [List.get_eq_getElem, List.getElem_cons_succ]
          simp [List.getElem_dropLast]
        have hi2 : i < (x :: y :: xs).length := by
          simp only [List.length_cons] at hi ⊢
          omega
        have hj2 : (i - 1) / 2 < (x :: y :: xs).length := by
          simp only [List.length_cons] at hj ⊢
          omega
        rw [hval i hi2 hi h0, hval ((i - 1) / 2) hj2 hj (by omega)]
        exact hh i hi2 h0
      · intro c j hc hj hcp hjp h0c h0p
        exact absurd h0p (by omega)

/-- In a heap of `good` elements, nothing compares strictly below the
root: the root is minimal for `lt`. -/
theorem isHeap_root (lt : α → α → Bool) (good : α → Prop)
    (hl : HeapLaws lt good) (l : List α) (hg : ∀ y ∈ l, good y)
    (hh : IsHeap lt l) :
    ∀ i, (hi : i < l.length) → (h0 : 0 < l.length) →
      lt (l.get ⟨i, hi⟩) (l.get ⟨0, h0⟩) = false := by
  intro i
  induction i using Nat.strong_induction_on with
  | _ i ih =>
    intro hi h0
    rcases Nat.eq_zero_or_pos i with h | h
    · subst h
      exact hl.irrefl _ (hg _ (by simp [List.get_eq_getElem, List.getElem_mem]))
    · have h1 := hh i hi h
      have h2 := ih ((i - 1) / 2) (by omega) (heapParent_lt hi) h0
      exact hl.conn _ _ _
        (hg _ (by simp [List.get_eq_getElem, List.getElem_mem]))
        (hg _ (by simp [List.get_eq_getElem, List.getElem_mem]))
        (hg _ (by simp [List.get_eq_getElem, List.getElem_mem])) h1 h2

/-! ### Instantiation for order-book entries -/

/-- Container states reachable by the engine's heap operations on one
side `t`: empty, push of an entry of that side, pop. -/
inductive ReachableBook (t : IntentType) : List OrderBookEntry → Prop where
  | nil : ReachableBook t []
  | push (l : List OrderBookEntry) (e : OrderBookEntry) :
      ReachableBook t l → e.intent_type = t →
      ReachableBook t (heappush OrderBookEntry.lt l e)
  | pop (l : List OrderBookEntry) :
      ReachableBook t l → ReachableBook t (heappopRest OrderBookEntry.lt l)

/-- Entries of one fixed intent type satisfy the strict-weak-order laws
under `OrderBookEntry.lt` (the comparison dispatches on the left
argument's type, so the laws hold only on type-homogeneous containers —
which the engine maintains by construction). -/
theorem entryHeapLaws (t : IntentType) :
    HeapLaws OrderBookEntry.lt (fun e => e.intent_type = t) := by
  constructor
  · intro a ha
    cases t <;> simp [OrderBookEntry.lt, ha]
  · intro a b c ha hb hc h1 h2
    cases t <;> simp [OrderBookEntry.lt, ha, hb, hc] at h1 h2 ⊢ <;> omega
  · intro a b c ha hb hc h1 h2
    cases t <;> simp [OrderBookEntry.lt, ha, hb, hc] at h1 h2 ⊢ <;> omega

theorem ReachableBook.good {t : IntentType} {l : List OrderBookEntry}
    (h : ReachableBook t l) : ∀ y ∈ l, y.intent_type = t := by
  induction h with
  | nil => simp
  | push l e hr het ih =>
    intro y hy
    rcases heappush_mem _ _ _ y hy with hm | hm
    · exact ih y hm
    · subst hm
      exact het
  | pop l hr ih =>
    intro y hy
    exact ih y (heappopRest_mem _ _ y hy)

theorem ReachableBook.isHeap {t : IntentType} {l : List OrderBookEntry}
    (h : ReachableBook t l) : IsHeap OrderBookEntry.lt l := by
  induction h with
  | nil =>
    intro i hi h0
    simp at hi
  | push l e hr het ih =>
    exact heappush_isHeap _ _ (entryHeapLaws t) l e hr.good het ih
  | pop l hr ih =>
    exact heappop_isHeap _ _ (entryHeapLaws t) l hr.good ih

/-- In any reachable bid container, the first element has the maximal
price. -/
theorem reachable_bid_head_max (e : OrderBookEntry)
    (rest : List OrderBookEntry)
    (hr : ReachableBook IntentType.BID (e :: rest)) :
    ∀ y ∈ e :: rest, y.price ≤ e.price := by
  intro y hy
  obtain ⟨i, hget⟩ := List.mem_iff_get.mp hy
  have hroot := isHeap_root OrderBookEntry.lt _
    (entryHeapLaws IntentType.BID) (e :: rest) hr.good hr.isHeap
    i.1 i.2 (by simp)
  have hty := hr.good y hy
  rw [show (⟨i.1, i.2⟩ : Fin (e :: rest).length) = i from rfl, hget] at hroot
  have h0 : ((e :: rest).get ⟨0, by simp⟩) = e := rfl
  rw [h0] at hroot
  simp [OrderBookEntry.lt, hty] at hroot
  omega

/-- In any reachable ask container, the first element has the minimal
price. -/
theorem reachable_ask_head_min (e : OrderBookEntry)
    (rest : List OrderBookEntry)
    (hr : ReachableBook IntentType.ASK (e :: rest)) :
    ∀ y ∈ e :: rest, e.price ≤ y.price := by
  intro y hy
  obtain ⟨i, hget⟩ := List.mem_iff_get.mp hy
  have hroot := isHeap_root OrderBookEntry.lt _
    (entryHeapLaws IntentType.ASK) (e :: rest) hr.good hr.isHeap
    i.1 i.2 (by simp)
  have hty := hr.good y hy
  rw [show (⟨i.1, i.2⟩ : Fin (e :: rest).length) = i from rfl, hget] at hroot
  have h0 : ((e :: rest).get ⟨0, by simp⟩) = e := rfl
  rw [h0] at hroot
  simp [OrderBookEntry.lt, hty] at hroot
  omega

/-! ### The auction engine -/

/-- A Python dict of per-asset books, as an insertion-ordered
association list (CPython dicts preserve insertion order; updating an
existing key keeps its position). -/
abbrev Books := List (String × List OrderBookEntry)

def getBook : Books → String → Option (List OrderBookEntry)
  | [], _ => none
  | (k, v) :: bs, a => if k = a then some v else getBook bs a

def setBook : Books → String → List OrderBookEntry → Books
  | [], a, l => [(a, l)]
  | (k, v) :: bs, a, l =>
    if k = a then (a, l) :: bs else (k, v) :: setBook bs a l

/-- The mutable matching state of `AuctionEngine`: the two per-asset
book dicts.  The web3 handles, account and indexer are external
resources, not matching state. -/
structure AuctionState where
  bid_books : Books
  ask_books : Books
deriving DecidableEq, Repr

/-- The state built by `AuctionEngine.__init__`. -/
def initState : AuctionState := ⟨[], []⟩

/-- Embeds `AuctionEngine.add_intent`: push the entry onto the
side-appropriate book for its settlement asset, creating the per-asset
list lazily. -/
def add_intent (s : AuctionState) (entry : OrderBookEntry) : AuctionState :=
  let asset := entry.settlement_asset
  match entry.intent_type with
  | IntentType.BID =>
    let book := (getBook s.bid_books asset).getD []
    { s with bid_books :=
        setBook s.bid_books asset (heappush OrderBookEntry.lt book entry) }
  | IntentType.ASK =>
    let book := (getBook s.ask_books asset).getD []
    { s with ask_books :=
        setBook s.ask_books asset (heappush OrderBookEntry.lt book entry) }

/-- Embeds `AuctionEngine.try_match`: if either side's book is missing
or empty return no match; otherwise peek both heads, cross iff
`bid.price >= ask.price`, settle at the floor midpoint
(`(bid.price + ask.price) // 2`, Python floor division) and pop both
heaps. -/
def try_match (s : AuctionState) (asset : String) :
    Option (OrderBookEntry × OrderBookEntry × Int) × AuctionState :=
  match getBook s.bid_books asset, getBook s.ask_books asset with
  | some bids, some asks =>
    match bids, asks with
    | best_bid :: _, best_ask :: _ =>
      if best_bid.price ≥ best_ask.price then
        let match_price := Int.fdiv (best_bid.price + best_ask.price) 2
        (some (best_bid, best_ask, match_price),
          { s with
            bid_books := setBook s.bid_books asset
              (heappopRest OrderBookEntry.lt bids),
            ask_books := setBook s.ask_books asset
              (heappopRest OrderBookEntry.lt asks) })
      else
        (none, s)
    | _, _ => (none, s)
  | _, _ => (none, s)

theorem getBook_setBook_self (bs : Books) (a : String)
    (l : List OrderBookEntry) : getBook (setBook bs a l) a = some l := by
  induction bs with
  | nil => simp [getBook, setBook]
  | cons kv rest ih =>
    obtain ⟨k, v⟩ := kv
    by_cases hk : k = a
    · simp [getBook, setBook, hk]
    · simp [getBook, setBook, hk, ih]

theorem getBook_setBook_other (bs : Books) (a b : String)
    (l : List OrderBookEntry) (hab : a ≠ b) :
    getBook (setBook bs a l) b = getBook bs b := by
  induction bs with
  | nil => simp [getBook, setBook, hab]
  | cons kv rest ih =>
    obtain ⟨k, v⟩ := kv
    by_cases hk : k = a
    · subst hk
      simp [getBook, setBook, hab]
    · simp only [setBook, if_neg hk, getBook]
      by_cases hkb : k = b
      · simp [hkb]
      · simp [hkb, ih]

/-- A successful `try_match` strictly shrinks the bid book of the
matched asset (this is the loop variant of `match_continuously`). -/
theorem try_match_some_bidlen (s : AuctionState) (asset : String)
    (m : OrderBookEntry × OrderBookEntry × Int) (s' : AuctionState)
    (h : try_match s asset = (some m, s')) :
    ((getBook s'.bid_books asset).getD []).length <
      ((getBook s.bid_books asset).getD []).length := by
  cases hb : getBook s.bid_books asset with
  | none => simp [try_match, hb] at h
  | some bids =>
    cases ha : getBook s.ask_books asset with
    | none => simp [try_match, hb, ha] at h
    | some asks =>
      cases bids with
      | nil => simp [try_match, hb, ha] at h
      | cons bb bt =>
        cases asks with
        | nil => simp [try_match, hb, ha] at h
        | cons ab at2 =>
          simp only [try_match, hb, ha] at h
          split at h
          · have hs' : s' = { s with
                bid_books := setBook s.bid_books asset
                  (heappopRest OrderBookEntry.lt (bb :: bt)),
                ask_books := setBook s.ask_books asset
                  (heappopRest OrderBookEntry.lt (ab :: at2)) } := by
              have h2 := congrArg Prod.snd h
              simpa using h2.symm
            rw [hs']
            simp only [getBook_setBook_self, hb]
            simp [heappop_perm_length]
          · simp at h

/-- Embeds `AuctionEngine.match_continuously`: repeatedly `try_match`
until it returns no match; each produced match is handed to the
settlement submission (whose outcome the loop ignores).  Returns the
final state and the matches in production order.  Lean's termination
checker discharges the loop variant: each successful match strictly
shrinks the asset's bid book. -/
def match_continuously (s : AuctionState) (asset : String) :
    AuctionState × List (OrderBookEntry × OrderBookEntry × Int) :=
  match h : try_match s asset with
  | (some m, s') =>
    let r := match_continuously s' asset
    (r.1, m :: r.2)
  | (none, _) => (s, [])
termination_by ((getBook s.bid_books asset).getD []).length
decreasing_by
  exact try_match_some_bidlen s asset m s' h

/-- The decoded `constraints` object of an intent payload; each field
is optional, matching `dict.get` with the loader's defaults. -/
structure IntentConstraints where
  side : Option String
  price : Option Int
  quantity : Option Int
deriving DecidableEq, Repr

/-- One row returned by `indexer.query_intents(is_active=True,
is_matched=False)`: the fields the loader reads.  The JSON payload is
modelled already decoded; `none` models a missing/empty payload (the
loader then uses the defaults "bid", 0, 1). -/
structure IntentRecord where
  intent_id : String
  actor : String
  payload : Option IntentConstraints
  timestamp : Int
  settlement_asset : String
  ap2_mandate_id : String
deriving DecidableEq, Repr

/-- Models Python `str.lower()`: per-character ASCII lowercasing
(the engine's side tokens are ASCII).  Defined over the character list
so that it evaluates inside the kernel. -/
def pyLower (s : String) : String := ⟨s.data.map Char.toLower⟩

/-- The per-intent body of `load_intents_from_indexer`:
`constraints.get("type", "bid")`, `constraints.get("price", 0)`,
`constraints.get("quantity", 1)`; intents with `price == 0` are
skipped; any side string other than `"bid"` (case-insensitively) is
treated as an ask; everything else is inserted via `add_intent`. -/
def processIntent (s : AuctionState) (i : IntentRecord) : AuctionState :=
  let constraints := i.payload.getD ⟨none, none, none⟩
  let intent_type_str := constraints.side.getD "bid"
  let price := constraints.price.getD 0
  let quantity := constraints.quantity.getD 1
  if price = 0 then s
  else
    let intent_type :=
      if pyLower intent_type_str = "bid" then IntentType.BID
      else IntentType.ASK
    add_intent s ⟨i.intent_id, i.actor, price, quantity, intent_type,
      i.timestamp, i.settlement_asset, i.ap2_mandate_id⟩

/-- Embeds `AuctionEngine.load_intents_from_indexer`, applied to the
already-queried intent rows: each row is processed in order on top of
the current state (the containers are not cleared first). -/
def load_intents_from_indexer (s : AuctionState)
    (intents : List IntentRecord) : AuctionState :=
  intents.foldl processIntent s

/-- The outcome at the web3 boundary for one settlement submission,
abstracted as an input: either some step of the `try` block raised (RPC
connection error, signing failure, or `wait_for_transaction_receipt`
timing out after 120s), or a receipt with the given status arrived. -/
inductive ChainOutcome where
  | raised
  | receipt (status : Nat) (tx_hash : String)
deriving DecidableEq, Repr

/-- Embeds `AuctionEngine.create_match_onchain`: any raised exception
is caught and yields `None`; a receipt confirms the match (returns the
transaction hash) only when its status is 1. -/
def create_match_onchain (bid_intent_id ask_intent_id : String)
    (match_price : Int) (outcome : ChainOutcome) : Option String :=
  match outcome with
  | ChainOutcome.raised => none
  | ChainOutcome.receipt status tx_hash =>
    if status = 1 then some tx_hash else none

/-- One snapshot price level (`intent_id`, `price`, `quantity`). -/
structure BookLevel where
  intent_id : String
  price : Int
  quantity : Int
deriving DecidableEq, Repr

/-- The dict returned by `get_order_book_snapshot`. -/
structure OrderBookSnapshot where
  asset : String
  bids : List BookLevel
  asks : List BookLevel
  spread : Option Int
deriving DecidableEq, Repr

/-- Embeds `AuctionEngine.get_order_book_snapshot`: sort a copy of each
book (Python `sorted` does not mutate its input, so the state component
is returned unchanged), keep the top 10 of each side, and compute the
spread from the truncated lists when both are nonempty. -/
def get_order_book_snapshot (s : AuctionState) (asset : String) :
    OrderBookSnapshot × AuctionState :=
  let bids := (((getBook s.bid_books asset).getD []).mergeSort
    (fun a b => decide (b.price ≤ a.price))).take 10
  let asks := (((getBook s.ask_books asset).getD []).mergeSort
    (fun a b => decide (a.price ≤ b.price))).take 10
  (⟨asset,
    bids.map (fun b => ⟨b.intent_id, b.price, b.quantity⟩),
    asks.map (fun a => ⟨a.intent_id, a.price, a.quantity⟩),
    match asks, bids with
    | a :: _, b :: _ => some (a.price - b.price)
    | _, _ => none⟩, s)

/-- The assets visited by one pass of `run_matching_loop`:
`set(bid_books) | set(ask_books)`. -/
def bookAssets (s : AuctionState) : List String :=
  (s.bid_books.map Prod.fst ++ s.ask_books.map Prod.fst).dedup

/-- Runs `match_continuously` over a list of assets, accumulating matches. -/
def matchAssets : AuctionState → List String →
    AuctionState × List (OrderBookEntry × OrderBookEntry × Int)
  | s, [] => (s, [])
  | s, a :: rest =>
    let r1 := match_continuously s a
    let r2 := matchAssets r1.1 rest
    (r2.1, r1.2 ++ r2.2)

/-- One iteration of `run_matching_loop`: reload intents from the
indexer, then match continuously for every asset present in either
book. -/
def run_cycle (s : AuctionState) (intents : List IntentRecord) :
    AuctionState × List (OrderBookEntry × OrderBookEntry × Int) :=
  let s1 := load_intents_from_indexer s intents
  matchAssets s1 (bookAssets s1)

/-- A run of the matching loop over successive indexer query results,
accumulating every match handed to settlement. -/
def run_cycles : AuctionState → List (List IntentRecord) →
    AuctionState × List (OrderBookEntry × OrderBookEntry × Int)
  | s, [] => (s, [])
  | s, c :: cs =>
    let r1 := run_cycle s c
    let r2 := run_cycles r1.1 cs
    (r2.1, r1.2 ++ r2.2)

/-! ### Bridging floor division to the rational floor -/

theorem fdiv_two_eq_floor (n : Int) : Int.fdiv n 2 = ⌊(n : ℚ) / 2⌋ := by
  rw [Int.fdiv_eq_ediv n (by norm_num)]
  rw [show ((2 : ℚ)) = ((2 : ℕ) : ℚ) by norm_num]
  rw [Rat.floor_intCast_div_natCast n 2]
  norm_num

/-! ### Claims -/

/-- C3: `try_match(asset)` returns a match iff both books for the asset
exist, both are nonempty, and the best (head) bid's price is at least
the best (head) ask's price; in every other situation it returns no
match (and, being a total function, raises nothing). -/
theorem try_match_crossing_iff (s : AuctionState) (asset : String) :
    (try_match s asset).1 ≠ none ↔
      ∃ b bs a as2, getBook s.bid_books asset = some (b :: bs) ∧
        getBook s.ask_books asset = some (a :: as2) ∧ a.price ≤ b.price := by
  constructor
  · intro h
    cases hb : getBook s.bid_books asset with
    | none => simp [try_match, hb] at h
    | some bids =>
      cases ha : getBook s.ask_books asset with
      | none => simp [try_match, hb, ha] at h
      | some asks =>
        cases bids with
        | nil => simp [try_match, hb, ha] at h
        | cons bb bt =>
          cases asks with
          | nil => simp [try_match, hb, ha] at h
          | cons ab at2 =>
            by_cases hc : ab.price ≤ bb.price
            · exact ⟨bb, bt, ab, at2, rfl, rfl, hc⟩
            · exfalso
              apply h
              simp [try_match, hb, ha, hc]
  · rintro ⟨b, bs, a, as2, hb, ha, hc⟩
    simp [try_match, hb, ha, hc]

/-- C4: every match settles exactly at the floor midpoint of the two
crossing prices, both as Python's `//` (`Int.fdiv`) and as the
mathematical floor of the rational midpoint. -/
theorem settlement_price_is_floor_midpoint (s : AuctionState)
    (asset : String) (b a : OrderBookEntry) (p : Int)
    (h : (try_match s asset).1 = some (b, a, p)) :
    p = Int.fdiv (b.price + a.price) 2 ∧
      p = ⌊((b.price + a.price : Int) : ℚ) / 2⌋ := by
  cases hb : getBook s.bid_books asset with
  | none => simp [try_match, hb] at h
  | some bids =>
    cases ha : getBook s.ask_books asset with
    | none => simp [try_match, hb, ha] at h
    | some asks =>
      cases bids with
      | nil => simp [try_match, hb, ha] at h
      | cons bb bt =>
        cases asks with
        | nil => simp [try_match, hb, ha] at h
        | cons ab at2 =>
          simp only [try_match, hb, ha] at h
          split at h
          · simp only [Prod.fst] at h
            have h2 : bb = b ∧ ab = a ∧
                Int.fdiv (bb.price + ab.price) 2 = p := by
              simpa using h
            obtain ⟨rfl, rfl, rfl⟩ := h2
            exact ⟨rfl, fdiv_two_eq_floor _⟩
          · simp at h

/-- C4 witness: with a bid at 10100 and an ask at 10000 the settlement
price is exactly 10050. -/
theorem settlement_price_is_floor_midpoint_witness :
    (10050 : Int) = Int.fdiv (10100 + 10000) 2 ∧
      (10050 : Int) = ⌊((10100 + 10000 : Int) : ℚ) / 2⌋ := by
  have h := settlement_price_is_floor_midpoint
    (add_intent (add_intent initState
      ⟨"B1", "alice", 10100, 1, IntentType.BID, 1, "BTC", "m1"⟩)
      ⟨"A1", "bob", 10000, 1, IntentType.ASK, 2, "BTC", "m2"⟩)
    "BTC"
    ⟨"B1", "alice", 10100, 1, IntentType.BID, 1, "BTC", "m1"⟩
    ⟨"A1", "bob", 10000, 1, IntentType.ASK, 2, "BTC", "m2"⟩
    10050
    (by simp [try_match, add_intent, initState, getBook, setBook,
      heappush, siftdownLoop, heappopRest, heappop, Int.fdiv])
  simpa using h

/-- C9: the settlement submission confirms a match (returns a
transaction reference) exactly when the boundary acknowledges success
with a status-1 receipt; a raised error (timeout, network failure) or a
failed receipt yields no reference. -/
theorem create_match_confirmed_iff_receipt_ok (b a : String) (p : Int)
    (o : ChainOutcome) :
    (create_match_onchain b a p o).isSome = true ↔
      ∃ hx, o = ChainOutcome.receipt 1 hx := by
  cases o with
  | raised => simp [create_match_onchain]
  | receipt st hx =>
    by_cases h1 : st = 1 <;> simp [create_match_onchain, h1]

/-- C2 failing input: the loader does not clear the books.  A stale
bid left from a previous cycle (intent "S") survives a reconciliation
pass verbatim: loading an empty indexer result leaves it in place, and
loading a fresh intent merges with it instead of replacing it. -/
theorem load_keeps_stale_entries :
    load_intents_from_indexer
      (add_intent initState ⟨"S", "sue", 50, 1, IntentType.BID, 0, "BTC", "m0"⟩)
      [] =
      add_intent initState ⟨"S", "sue", 50, 1, IntentType.BID, 0, "BTC", "m0"⟩ ∧
    (⟨"S", "sue", 50, 1, IntentType.BID, 0, "BTC", "m0"⟩ : OrderBookEntry) ∈
      (getBook (load_intents_from_indexer
        (add_intent initState ⟨"S", "sue", 50, 1, IntentType.BID, 0, "BTC", "m0"⟩)
        [⟨"N", "ned", some ⟨some "bid", some 60, some 1⟩, 5, "BTC", "m5"⟩]).bid_books
        "BTC").getD [] := by
  constructor
  · rfl
  · simp [load_intents_from_indexer, processIntent, add_intent, initState,
      getBook, setBook, heappush, siftdownLoop, pyLower, OrderBookEntry.lt]

/-- C1 failing input: intent "A" (bid, 100, BTC) is active and unmatched
in two consecutive reconciliation cycles (it found no counterparty in
the first), and two asks "X", "Y" (90, BTC) arrive in the second cycle.
Because reconciliation re-adds "A" on top of the stale copy, the engine
emits two distinct matches that both consume bid intent "A" — and the
boundary may legitimately confirm both with status-1 receipts. -/
theorem double_consumption_of_one_intent :
    ((run_cycles initState
      [[⟨"A", "alice", some ⟨some "bid", some 100, some 1⟩, 1, "BTC", "m1"⟩],
       [⟨"A", "alice", some ⟨some "bid", some 100, some 1⟩, 1, "BTC", "m1"⟩,
        ⟨"X", "xena", some ⟨some "ask", some 90, some 1⟩, 2, "BTC", "m2"⟩,
        ⟨"Y", "yuri", some ⟨some "ask", some 90, some 1⟩, 3, "BTC", "m3"⟩]]).2.map
      (fun m => (m.1.intent_id, m.2.1.intent_id, m.2.2))) =
      [("A", "X", 95), ("A", "Y", 95)] ∧
    create_match_onchain "A" "X" 95 (ChainOutcome.receipt 1 "0xaaa") =
      some "0xaaa" ∧
    create_match_onchain "A" "Y" 95 (ChainOutcome.receipt 1 "0xbbb") =
      some "0xbbb" := by
  refine ⟨?_, rfl, rfl⟩
  simp [run_cycles, run_cycle, load_intents_from_indexer, processIntent,
    add_intent, getBook, setBook, heappush, siftdownLoop, heappop,
    heappopRest, siftupLoop, match_continuously, matchAssets, bookAssets,
    try_match, pyLower, OrderBookEntry.lt, initState, List.dedup]

/-! ### Loader accounting (C6) -/

/-- All entries across every per-asset book of one side. -/
def allBookEntries (bs : Books) : List OrderBookEntry :=
  (bs.map Prod.snd).join

/-- The decoded constraints of an intent row (missing payload gives all
defaults). -/
def intentConstraints (i : IntentRecord) : IntentConstraints :=
  i.payload.getD ⟨none, none, none⟩

/-- Reads `constraints.get("price", 0)`. -/
def intentPrice (i : IntentRecord) : Int :=
  (intentConstraints i).price.getD 0

/-- Whether the loader classifies the row as a bid:
`constraints.get("type", "bid").lower() == "bid"`. -/
def intentIsBid (i : IntentRecord) : Bool :=
  decide (pyLower ((intentConstraints i).side.getD "bid") = "bid")

/-- The order-book entry the loader builds from an intent row. -/
def toEntry (i : IntentRecord) : OrderBookEntry :=
  ⟨i.intent_id, i.actor, intentPrice i,
    (intentConstraints i).quantity.getD 1,
    if intentIsBid i then IntentType.BID else IntentType.ASK,
    i.timestamp, i.settlement_asset, i.ap2_mandate_id⟩

theorem allBookEntries_cons (k : String) (v : List OrderBookEntry)
    (bs : Books) :
    allBookEntries ((k, v) :: bs) = v ++ allBookEntries bs := by
  simp [allBookEntries]

theorem allBookEntries_setBook_push (bs : Books) (a : String)
    (x : OrderBookEntry) :
    allBookEntries (setBook bs a
      (heappush OrderBookEntry.lt ((getBook bs a).getD []) x)) ~
      allBookEntries bs ++ [x] := by
  induction bs with
  | nil =>
    simpa [allBookEntries, setBook, getBook] using
      heappush_perm OrderBookEntry.lt [] x
  | cons kv rest ih =>
    obtain ⟨k, v⟩ := kv
    by_cases hk : k = a
    · subst hk
      have h2 : getBook ((k, v) :: rest) k = some v := by
        simp [getBook]
      rw [h2]
      rw [show setBook ((k, v) :: rest) k
          (heappush OrderBookEntry.lt ((some v).getD []) x) =
          (k, heappush OrderBookEntry.lt v x) :: rest from by
        simp [setBook]]
      rw [allBookEntries_cons, allBookEntries_cons]
      have h1 := heappush_perm OrderBookEntry.lt v x
      calc heappush OrderBookEntry.lt v x ++ allBookEntries rest
          ~ (v ++ [x]) ++ allBookEntries rest :=
            h1.append_right _
        _ ~ (v ++ allBookEntries rest) ++ [x] := by
            rw [List.append_assoc, List.append_assoc]
            exact List.Perm.append_left v List.perm_append_comm
    · have h2 : getBook ((k, v) :: rest) a = getBook rest a := by
        simp [getBook, hk]
      rw [h2]
      rw [show setBook ((k, v) :: rest) a
          (heappush OrderBookEntry.lt ((getBook rest a).getD []) x) =
          (k, v) :: setBook rest a
            (heappush OrderBookEntry.lt ((getBook rest a).getD []) x) from by
        simp [setBook, hk]]
      rw [allBookEntries_cons, allBookEntries_cons]
      calc v ++ allBookEntries (setBook rest a
            (heappush OrderBookEntry.lt ((getBook rest a).getD []) x))
          ~ v ++ (allBookEntries rest ++ [x]) :=
            List.Perm.append_left v ih
        _ ~ (v ++ allBookEntries rest) ++ [x] := by
            rw [List.append_assoc]

/-- Effect of `add_intent` on the two sides, for a bid entry. -/
theorem add_intent_bid_effect (s : AuctionState) (e : OrderBookEntry)
    (he : e.intent_type = IntentType.BID) :
    allBookEntries (add_intent s e).bid_books ~
      allBookEntries s.bid_books ++ [e] ∧
    (add_intent s e).ask_books = s.ask_books := by
  constructor
  · simp only [add_intent, he]
    exact allBookEntries_setBook_push s.bid_books e.settlement_asset e
  · simp [add_intent, he]

/-- Effect of `add_intent` on the two sides, for an ask entry. -/
theorem add_intent_ask_effect (s : AuctionState) (e : OrderBookEntry)
    (he : e.intent_type = IntentType.ASK) :
    allBookEntries (add_intent s e).ask_books ~
      allBookEntries s.ask_books ++ [e] ∧
    (add_intent s e).bid_books = s.bid_books := by
  constructor
  · simp only [add_intent, he]
    exact allBookEntries_setBook_push s.ask_books e.settlement_asset e
  · simp [add_intent, he]

/-- The per-intent loader body in closed form: skip exactly on
`price == 0`, otherwise insert the built entry. -/
theorem processIntent_eq (s : AuctionState) (i : IntentRecord) :
    processIntent s i =
      if intentPrice i = 0 then s else add_intent s (toEntry i) := by
  have hzeq : ((i.payload.getD ⟨none, none, none⟩).price.getD 0)
      = intentPrice i := rfl
  by_cases hz : intentPrice i = 0
  · rw [if_pos hz]
    simp only [processIntent]
    rw [hzeq, if_pos hz]
  · rw [if_neg hz]
    simp only [processIntent]
    rw [hzeq, if_neg hz]
    by_cases hbid : pyLower ((intentConstraints i).side.getD "bid") = "bid"
    · simp [toEntry, intentIsBid, intentPrice, intentConstraints, hbid]
    · simp [toEntry, intentIsBid, intentPrice, intentConstraints, hbid]

/-- C6 counterexample: an intent with strictly negative price (-5) is
NOT skipped — it is inserted into the bid book, although the claim says
every intent with `price <= 0` is skipped. -/
theorem negative_price_intent_enters_book :
    (getBook (load_intents_from_indexer initState
      [⟨"neg", "eve", some ⟨some "bid", some (-5), some 1⟩, 7, "BTC", "m9"⟩]).bid_books
      "BTC").getD [] =
      [⟨"neg", "eve", -5, 1, IntentType.BID, 7, "BTC", "m9"⟩] := by
  simp [load_intents_from_indexer, processIntent, add_intent, initState,
    getBook, setBook, heappush, siftdownLoop, pyLower, OrderBookEntry.lt]

/-- C6 (amended): the loader skips exactly the intents whose decoded
price equals 0 (negative prices pass through); every other intent is
inserted into the side-appropriate container — any side string other
than a case variant of "bid" is read as an ask, never rejected — and
processing never raises, so the remaining intents are always handled.
Stated as: after a load, each side's books hold, up to permutation, the
old entries plus the built entries of exactly the nonzero-price intents
classified to that side. -/
theorem loader_skips_exactly_zero_price (s : AuctionState)
    (intents : List IntentRecord) :
    allBookEntries (load_intents_from_indexer s intents).bid_books ~
      allBookEntries s.bid_books ++
        ((intents.filter
          (fun i => (intentPrice i != 0) && intentIsBid i)).map toEntry) ∧
    allBookEntries (load_intents_from_indexer s intents).ask_books ~
      allBookEntries s.ask_books ++
        ((intents.filter
          (fun i => (intentPrice i != 0) && !(intentIsBid i))).map toEntry) := by
  induction intents generalizing s with
  | nil =>
    simp [load_intents_from_indexer]
  | cons i rest ih =>
    have hload : load_intents_from_indexer s (i :: rest) =
        load_intents_from_indexer (processIntent s i) rest := rfl
    rw [hload, processIntent_eq]
    by_cases hz : intentPrice i = 0
    · rw [if_pos hz]
      have hf : ((intentPrice i != 0) && intentIsBid i) = false := by
        simp [hz]
      have hf2 : ((intentPrice i != 0) && !(intentIsBid i)) = false := by
        simp [hz]
      simp only [List.filter_cons, hf, hf2]
      simpa using ih s
    · rw [if_neg hz]
      by_cases hbid : intentIsBid i = true
      · have he : (toEntry i).intent_type = IntentType.BID := by
          simp [toEntry, hbid]
        have heff := add_intent_bid_effect s (toEntry i) he
        have hstep := ih (add_intent s (toEntry i))
        have hf : ((intentPrice i != 0) && intentIsBid i) = true := by
          simp [hz, hbid]
        have hf2 : ((intentPrice i != 0) && !(intentIsBid i)) = false := by
          simp [hz, hbid]
        simp only [List.filter_cons, hf, hf2, if_true, if_false]
        refine ⟨?_, ?_⟩
        · refine hstep.1.trans ?_
          simp only [List.map_cons]
          refine (heff.1.append_right _).trans ?_
          rw [List.append_assoc]
          simp
        · rw [← heff.2]
          simpa using hstep.2
      · have hask : intentIsBid i = false := by
          cases h : intentIsBid i
          · rfl
          · exact absurd h hbid
        have he : (toEntry i).intent_type = IntentType.ASK := by
          simp [toEntry, hask]
        have heff := add_intent_ask_effect s (toEntry i) he
        have hstep := ih (add_intent s (toEntry i))
        have hf : ((intentPrice i != 0) && intentIsBid i) = false := by
          simp [hz, hask]
        have hf2 : ((intentPrice i != 0) && !(intentIsBid i)) = true := by
          simp [hz, hask]
        simp only [List.filter_cons, hf, hf2, if_true, if_false]
        refine ⟨?_, ?_⟩
        · rw [← heff.2]
          simpa using hstep.1
        · refine hstep.2.trans ?_
          simp only [List.map_cons]
          refine (heff.1.append_right _).trans ?_
          rw [List.append_assoc]
          simp

/-- C7: on a match, `try_match` removes exactly the two returned
entries: each matched asset book loses precisely its head (the remaining
entries are a permutation of the old tail, so each container shrinks by
exactly one), every other asset's books are untouched; on "no match"
the state is returned completely unchanged. -/
theorem try_match_pops_exactly (s : AuctionState) (asset : String) :
    (∀ b a p s', try_match s asset = (some (b, a, p), s') →
      ∃ bs as2 bs2 as3,
        getBook s.bid_books asset = some (b :: bs) ∧
        getBook s.ask_books asset = some (a :: as2) ∧
        getBook s'.bid_books asset = some bs2 ∧ bs2 ~ bs ∧
        getBook s'.ask_books asset = some as3 ∧ as3 ~ as2 ∧
        (∀ other, other ≠ asset →
          getBook s'.bid_books other = getBook s.bid_books other ∧
          getBook s'.ask_books other = getBook s.ask_books other)) ∧
    ((try_match s asset).1 = none → (try_match s asset).2 = s) := by
  constructor
  · intro b a p s' h
    cases hb : getBook s.bid_books asset with
    | none => simp [try_match, hb] at h
    | some bids =>
      cases ha : getBook s.ask_books asset with
      | none => simp [try_match, hb, ha] at h
      | some asks =>
        cases bids with
        | nil => simp [try_match, hb, ha] at h
        | cons bb bt =>
          cases asks with
          | nil => simp [try_match, hb, ha] at h
          | cons ab at2 =>
            simp only [try_match, hb, ha] at h
            split at h
            · have h2 : bb = b ∧ ab = a ∧ s' = { s with
                  bid_books := setBook s.bid_books asset
                    (heappopRest OrderBookEntry.lt (bb :: bt)),
                  ask_books := setBook s.ask_books asset
                    (heappopRest OrderBookEntry.lt (ab :: at2)) } := by
                have hfst := congrArg Prod.fst h
                have hsnd := congrArg Prod.snd h
                simp at hfst hsnd
                exact ⟨hfst.1, hfst.2.1, hsnd.symm⟩
              obtain ⟨rfl, rfl, rfl⟩ := h2
              refine ⟨bt, at2,
                heappopRest OrderBookEntry.lt (bb :: bt),
                heappopRest OrderBookEntry.lt (ab :: at2),
                rfl, rfl, ?_, heappop_perm _ _ _, ?_, heappop_perm _ _ _, ?_⟩
              · exact getBook_setBook_self _ _ _
              · exact getBook_setBook_self _ _ _
              · intro other ho
                constructor
                · simp [getBook_setBook_other _ _ _ _ (fun hx => ho hx.symm)]
                · simp [getBook_setBook_other _ _ _ _ (fun hx => ho hx.symm)]
            · simp at h
  · intro h
    cases hb : getBook s.bid_books asset with
    | none => simp [try_match, hb]
    | some bids =>
      cases ha : getBook s.ask_books asset with
      | none => simp [try_match, hb, ha]
      | some asks =>
        cases bids with
        | nil => simp [try_match, hb, ha]
        | cons bb bt =>
          cases asks with
          | nil => simp [try_match, hb, ha]
          | cons ab at2 =>
            by_cases hc : ab.price ≤ bb.price
            · exfalso
              simp [try_match, hb, ha, hc] at h
            · simp [try_match, hb, ha, hc]

/-- C7 witness: a concrete crossing state (bid 10100, ask 10000, BTC)
from which the match removes exactly the two heads, and a concrete
non-crossing state (empty books) that `try_match` leaves unchanged. -/
theorem try_match_pops_exactly_witness :
    (∃ bs as2 bs2 as3,
      getBook (add_intent (add_intent initState
        ⟨"B1", "alice", 10100, 1, IntentType.BID, 1, "BTC", "m1"⟩)
        ⟨"A1", "bob", 10000, 1, IntentType.ASK, 2, "BTC", "m2"⟩).bid_books
        "BTC" =
        some (⟨"B1", "alice", 10100, 1, IntentType.BID, 1, "BTC", "m1"⟩ :: bs) ∧
      getBook (add_intent (add_intent initState
        ⟨"B1", "alice", 10100, 1, IntentType.BID, 1, "BTC", "m1"⟩)
        ⟨"A1", "bob", 10000, 1, IntentType.ASK, 2, "BTC", "m2"⟩).ask_books
        "BTC" =
        some (⟨"A1", "bob", 10000, 1, IntentType.ASK, 2, "BTC", "m2"⟩ :: as2) ∧
      getBook (AuctionState.mk [("BTC", [])] [("BTC", [])]).bid_books "BTC" =
        some bs2 ∧ bs2 ~ bs ∧
      getBook (AuctionState.mk [("BTC", [])] [("BTC", [])]).ask_books "BTC" =
        some as3 ∧ as3 ~ as2 ∧
      (∀ other, other ≠ "BTC" →
        getBook (AuctionState.mk [("BTC", [])] [("BTC", [])]).bid_books other =
          getBook (add_intent (add_intent initState
            ⟨"B1", "alice", 10100, 1, IntentType.BID, 1, "BTC", "m1"⟩)
            ⟨"A1", "bob", 10000, 1, IntentType.ASK, 2, "BTC", "m2"⟩).bid_books
            other ∧
        getBook (AuctionState.mk [("BTC", [])] [("BTC", [])]).ask_books other =
          getBook (add_intent (add_intent initState
            ⟨"B1", "alice", 10100, 1, IntentType.BID, 1, "BTC", "m1"⟩)
            ⟨"A1", "bob", 10000, 1, IntentType.ASK, 2, "BTC", "m2"⟩).ask_books
            other)) ∧
    (try_match initState "ETH").2 = initState := by
  constructor
  · exact (try_match_pops_exactly _ "BTC").1
      ⟨"B1", "alice", 10100, 1, IntentType.BID, 1, "BTC", "m1"⟩
      ⟨"A1", "bob", 10000, 1, IntentType.ASK, 2, "BTC", "m2"⟩
      10050
      (AuctionState.mk [("BTC", [])] [("BTC", [])])
      (by simp [try_match, add_intent, initState, getBook, setBook,
        heappush, siftdownLoop, heappopRest, heappop, OrderBookEntry.lt,
        Int.fdiv])
  · exact (try_match_pops_exactly initState "ETH").2
      (by simp [try_match, initState, getBook])

/-- A successful match removes exactly one entry from each of the two
matched books. -/
theorem try_match_some_lens (s : AuctionState) (asset : String)
    (m : OrderBookEntry × OrderBookEntry × Int) (s' : AuctionState)
    (h : try_match s asset = (some m, s')) :
    ((getBook s'.bid_books asset).getD []).length + 1 =
      ((getBook s.bid_books asset).getD []).length ∧
    ((getBook s'.ask_books asset).getD []).length + 1 =
      ((getBook s.ask_books asset).getD []).length := by
  cases hb : getBook s.bid_books asset with
  | none => simp [try_match, hb] at h
  | some bids =>
    cases ha : getBook s.ask_books asset with
    | none => simp [try_match, hb, ha] at h
    | some asks =>
      cases bids with
      | nil => simp [try_match, hb, ha] at h
      | cons bb bt =>
        cases asks with
        | nil => simp [try_match, hb, ha] at h
        | cons ab at2 =>
          simp only [try_match, hb, ha] at h
          split at h
          · have hs' : s' = { s with
                bid_books := setBook s.bid_books asset
                  (heappopRest OrderBookEntry.lt (bb :: bt)),
                ask_books := setBook s.ask_books asset
                  (heappopRest OrderBookEntry.lt (ab :: at2)) } := by
              have h2 := congrArg Prod.snd h
              simpa using h2.symm
            rw [hs']
            constructor
            · simp only [getBook_setBook_self]
              simp [heappop_perm_length]
            · simp only [getBook_setBook_self]
              simp [heappop_perm_length]
          · simp at h

/-- When no match is possible the matching loop stops at once. -/
theorem match_continuously_none (s : AuctionState) (asset : String)
    (h : (try_match s asset).1 = none) :
    match_continuously s asset = (s, []) := by
  rw [match_continuously]
  split
  · next m2 s3 heq =>
    rw [heq] at h
    simp at h
  · rfl

/-- One unfolding of the matching loop on a successful match. -/
theorem match_continuously_some (s : AuctionState) (asset : String)
    (m : OrderBookEntry × OrderBookEntry × Int) (s2 : AuctionState)
    (htm : try_match s asset = (some m, s2)) :
    match_continuously s asset =
      ((match_continuously s2 asset).1,
        m :: (match_continuously s2 asset).2) := by
  rw [match_continuously]
  split
  · next m2 s3 heq =>
    rw [htm] at heq
    have h2 : m = m2 ∧ s2 = s3 := by simpa using heq
    obtain ⟨rfl, rfl⟩ := h2
    rfl
  · next x heq =>
    rw [htm] at heq
    simp at heq

/-- C8: `match_continuously` always terminates with one final failing
`try_match`: the final state admits no match, running the loop again
performs zero further matches, and the number N of matches performed is
bounded by each side's initial book size (each successful match
strictly shrinks both containers by one, `try_match_some_lens`). -/
theorem match_continuously_terminates (s : AuctionState) (asset : String) :
    (try_match (match_continuously s asset).1 asset).1 = none ∧
    (match_continuously s asset).2.length ≤
      ((getBook s.bid_books asset).getD []).length ∧
    (match_continuously s asset).2.length ≤
      ((getBook s.ask_books asset).getD []).length ∧
    match_continuously (match_continuously s asset).1 asset =
      ((match_continuously s asset).1, []) := by
  suffices H : ∀ n s2, ((getBook s2.bid_books asset).getD []).length ≤ n →
      (try_match (match_continuously s2 asset).1 asset).1 = none ∧
      (match_continuously s2 asset).2.length ≤
        ((getBook s2.bid_books asset).getD []).length ∧
      (match_continuously s2 asset).2.length ≤
        ((getBook s2.ask_books asset).getD []).length ∧
      match_continuously (match_continuously s2 asset).1 asset =
        ((match_continuously s2 asset).1, []) by
    exact H _ s (Nat.le_refl _)
  intro n
  induction n with
  | zero =>
    intro s2 hlen
    cases htm : try_match s2 asset with
    | mk o s3 =>
      cases o with
      | some m =>
        exfalso
        have := (try_match_some_lens s2 asset m s3 htm).1
        omega
      | none =>
        have hu := match_continuously_none s2 asset (by rw [htm])
        refine ⟨?_, ?_, ?_, ?_⟩
        · rw [hu]
          rw [htm]
        · simp [hu]
        · simp [hu]
        · rw [hu]
          exact hu
  | succ k ihk =>
    intro s2 hlen
    cases htm : try_match s2 asset with
    | mk o s3 =>
      cases o with
      | some m =>
        have hlens := try_match_some_lens s2 asset m s3 htm
        have hbid3 : ((getBook s3.bid_books asset).getD []).length ≤ k := by
          omega
        have ihh := ihk s3 hbid3
        have hu := match_continuously_some s2 asset m s3 htm
        refine ⟨?_, ?_, ?_, ?_⟩
        · rw [hu]
          exact ihh.1
        · rw [hu]
          have := ihh.2.1
          simp only [List.length_cons]
          omega
        · rw [hu]
          have := ihh.2.2.1
          simp only [List.length_cons]
          omega
        · rw [hu]
          exact ihh.2.2.2
      | none =>
        have hu := match_continuously_none s2 asset (by rw [htm])
        refine ⟨?_, ?_, ?_, ?_⟩
        · rw [hu]
          rw [htm]
        · simp [hu]
        · simp [hu]
        · rw [hu]
          exact hu

/-- C10: the order-book snapshot is a pure read: the state comes back
unchanged, the bids are (a permutation-faithful) top-10 of the bid book
in descending price order, the asks the top-10 in ascending order, and
the spread is best-ask price minus best-bid price, or empty when either
side is empty. -/
theorem snapshot_pure_sorted_top10 (s : AuctionState) (asset : String) :
    (get_order_book_snapshot s asset).2 = s ∧
    (get_order_book_snapshot s asset).1.asset = asset ∧
    (get_order_book_snapshot s asset).1.bids.length ≤ 10 ∧
    (get_order_book_snapshot s asset).1.asks.length ≤ 10 ∧
    (get_order_book_snapshot s asset).1.bids.Pairwise
      (fun x y => y.price ≤ x.price) ∧
    (get_order_book_snapshot s asset).1.asks.Pairwise
      (fun x y => x.price ≤ y.price) ∧
    (∃ sb, sb ~ (getBook s.bid_books asset).getD [] ∧
      sb.Pairwise (fun x y : OrderBookEntry => y.price ≤ x.price) ∧
      (get_order_book_snapshot s asset).1.bids =
        (sb.take 10).map (fun b => ⟨b.intent_id, b.price, b.quantity⟩)) ∧
    (∃ sa, sa ~ (getBook s.ask_books asset).getD [] ∧
      sa.Pairwise (fun x y : OrderBookEntry => x.price ≤ y.price) ∧
      (get_order_book_snapshot s asset).1.asks =
        (sa.take 10).map (fun a => ⟨a.intent_id, a.price, a.quantity⟩)) ∧
    ((get_order_book_snapshot s asset).1.spread = none ↔
      ((getBook s.bid_books asset).getD [] = [] ∨
        (getBook s.ask_books asset).getD [] = [])) ∧
    (∀ b bs a as2, (get_order_book_snapshot s asset).1.bids = b :: bs →
      (get_order_book_snapshot s asset).1.asks = a :: as2 →
      (get_order_book_snapshot s asset).1.spread =
        some (a.price - b.price)) := by
  have htransB : ∀ a b c : OrderBookEntry,
      (fun x y : OrderBookEntry => decide (y.price ≤ x.price)) a b = true →
      (fun x y : OrderBookEntry => decide (y.price ≤ x.price)) b c = true →
      (fun x y : OrderBookEntry => decide (y.price ≤ x.price)) a c = true := by
    intro a b c h1 h2
    simp at h1 h2 ⊢
    omega
  have htotalB : ∀ a b : OrderBookEntry,
      ((fun x y : OrderBookEntry => decide (y.price ≤ x.price)) a b ||
       (fun x y : OrderBookEntry => decide (y.price ≤ x.price)) b a) = true := by
    intro a b
    simp
    omega
  have htransA : ∀ a b c : OrderBookEntry,
      (fun x y : OrderBookEntry => decide (x.price ≤ y.price)) a b = true →
      (fun x y : OrderBookEntry => decide (x.price ≤ y.price)) b c = true →
      (fun x y : OrderBookEntry => decide (x.price ≤ y.price)) a c = true := by
    intro a b c h1 h2
    simp at h1 h2 ⊢
    omega
  have htotalA : ∀ a b : OrderBookEntry,
      ((fun x y : OrderBookEntry => decide (x.price ≤ y.price)) a b ||
       (fun x y : OrderBookEntry => decide (x.price ≤ y.price)) b a) = true := by
    intro a b
    simp
    omega
  have hsortB := List.sorted_mergeSort htransB htotalB
    ((getBook s.bid_books asset).getD [])
  have hsortA := List.sorted_mergeSort htransA htotalA
    ((getBook s.ask_books asset).getD [])
  have hpermB := List.mergeSort_perm ((getBook s.bid_books asset).getD [])
    (fun x y : OrderBookEntry => decide (y.price ≤ x.price))
  have hpermA := List.mergeSort_perm ((getBook s.ask_books asset).getD [])
    (fun x y : OrderBookEntry => decide (x.price ≤ y.price))
  have hsortB2 : (((getBook s.bid_books asset).getD []).mergeSort
      (fun x y : OrderBookEntry => decide (y.price ≤ x.price))).Pairwise
      (fun x y : OrderBookEntry => y.price ≤ x.price) := by
    refine hsortB.imp ?_
    intro a b h
    simpa using h
  have hsortA2 : (((getBook s.ask_books asset).getD []).mergeSort
      (fun x y : OrderBookEntry => decide (x.price ≤ y.price))).Pairwise
      (fun x y : OrderBookEntry => x.price ≤ y.price) := by
    refine hsortA.imp ?_
    intro a b h
    simpa using h
  refine ⟨rfl, rfl, ?_, ?_, ?_, ?_, ?_, ?_, ?_, ?_⟩
  · simp only [get_order_book_snapshot, List.length_map]
    exact List.length_take_le 10 _
  · simp only [get_order_book_snapshot, List.length_map]
    exact List.length_take_le 10 _
  · simp only [get_order_book_snapshot]
    rw [List.pairwise_map]
    exact List.Pairwise.sublist (List.take_sublist 10 _) hsortB2
  · simp only [get_order_book_snapshot]
    rw [List.pairwise_map]
    exact List.Pairwise.sublist (List.take_sublist 10 _) hsortA2
  · exact ⟨_, hpermB, hsortB2, rfl⟩
  · exact ⟨_, hpermA, hsortA2, rfl⟩
  · simp only [get_order_book_snapshot]
    constructor
    · intro h
      cases hA : ((getBook s.ask_books asset).getD []).mergeSort
          (fun x y : OrderBookEntry => decide (x.price ≤ y.price)) with
      | nil =>
        right
        have := hpermA.length_eq
        rw [hA] at this
        exact List.length_eq_zero.mp this.symm
      | cons a0 arest =>
        cases hB : ((getBook s.bid_books asset).getD []).mergeSort
            (fun x y : OrderBookEntry => decide (y.price ≤ x.price)) with
        | nil =>
          left
          have := hpermB.length_eq
          rw [hB] at this
          exact List.length_eq_zero.mp this.symm
        | cons b0 brest =>
          rw [hA, hB] at h
          simp at h
    · intro h
      rcases h with h | h
      · have hB : ((getBook s.bid_books asset).getD []).mergeSort
            (fun x y : OrderBookEntry => decide (y.price ≤ x.price)) = [] := by
          rw [h]
          simp
        rw [hB]
        cases ((getBook s.ask_books asset).getD []).mergeSort
            (fun x y : OrderBookEntry => decide (x.price ≤ y.price)) <;> simp
      · have hA : ((getBook s.ask_books asset).getD []).mergeSort
            (fun x y : OrderBookEntry => decide (x.price ≤ y.price)) = [] := by
          rw [h]
          simp
        rw [hA]
        simp
  · intro b bs a as2 hbids hasks
    simp only [get_order_book_snapshot] at hbids hasks ⊢
    cases hA : ((getBook s.ask_books asset).getD []).mergeSort
        (fun x y : OrderBookEntry => decide (x.price ≤ y.price)) with
    | nil =>
      simp [hA] at hasks
    | cons a0 arest =>
      cases hB : ((getBook s.bid_books asset).getD []).mergeSort
          (fun x y : OrderBookEntry => decide (y.price ≤ x.price)) with
      | nil =>
        simp [hB] at hbids
      | cons b0 brest =>
        simp only [hA, hB, show (10 : Nat) = 9 + 1 from rfl,
          List.take_succ_cons, List.map_cons] at hbids hasks ⊢
        injection hbids with h1 hrest1
        injection hasks with h2 hrest2
        rw [← h1, ← h2]

/-! ### Engine-level reachability (C5) -/

/-- States of the engine reachable through its public operations:
the constructor state, direct `add_intent` calls, reconciliation loads,
and matching steps (`match_continuously` is iterated `try_match`). -/
inductive EngineReachable : AuctionState → Prop where
  | init : EngineReachable initState
  | add (s : AuctionState) (e : OrderBookEntry) :
      EngineReachable s → EngineReachable (add_intent s e)
  | load (s : AuctionState) (intents : List IntentRecord) :
      EngineReachable s → EngineReachable (load_intents_from_indexer s intents)
  | step (s : AuctionState) (asset : String) :
      EngineReachable s → EngineReachable (try_match s asset).2

/-- Both books of every asset are reachable heap states of the correct
side. -/
def GoodBooks (s : AuctionState) : Prop :=
  ∀ asset, ReachableBook IntentType.BID
      ((getBook s.bid_books asset).getD []) ∧
    ReachableBook IntentType.ASK ((getBook s.ask_books asset).getD [])

theorem goodBooks_init : GoodBooks initState := by
  intro asset
  exact ⟨ReachableBook.nil, ReachableBook.nil⟩

theorem goodBooks_add_intent (s : AuctionState) (e : OrderBookEntry)
    (h : GoodBooks s) : GoodBooks (add_intent s e) := by
  intro asset
  cases hty : e.intent_type with
  | BID =>
    constructor
    · simp only [add_intent, hty]
      by_cases ha : asset = e.settlement_asset
      · subst ha
        rw [getBook_setBook_self]
        exact ReachableBook.push _ e (h e.settlement_asset).1 hty
      · rw [getBook_setBook_other _ _ _ _ (fun hx => ha hx.symm)]
        exact (h asset).1
    · simp only [add_intent, hty]
      exact (h asset).2
  | ASK =>
    constructor
    · simp only [add_intent, hty]
      exact (h asset).1
    · simp only [add_intent, hty]
      by_cases ha : asset = e.settlement_asset
      · subst ha
        rw [getBook_setBook_self]
        exact ReachableBook.push _ e (h e.settlement_asset).2 hty
      · rw [getBook_setBook_other _ _ _ _ (fun hx => ha hx.symm)]
        exact (h asset).2

theorem goodBooks_load (s : AuctionState) (intents : List IntentRecord)
    (h : GoodBooks s) : GoodBooks (load_intents_from_indexer s intents) := by
  induction intents generalizing s with
  | nil => exact h
  | cons i rest ih =>
    have hload : load_intents_from_indexer s (i :: rest) =
        load_intents_from_indexer (processIntent s i) rest := rfl
    rw [hload]
    refine ih (processIntent s i) ?_
    rw [processIntent_eq]
    by_cases hz : intentPrice i = 0
    · rw [if_pos hz]
      exact h
    · rw [if_neg hz]
      exact goodBooks_add_intent s (toEntry i) h

theorem goodBooks_try_match (s : AuctionState) (asset : String)
    (h : GoodBooks s) : GoodBooks (try_match s asset).2 := by
  cases hb : getBook s.bid_books asset with
  | none => simpa [try_match, hb] using h
  | some bids =>
    cases ha : getBook s.ask_books asset with
    | none => simpa [try_match, hb, ha] using h
    | some asks =>
      cases bids with
      | nil => simpa [try_match, hb, ha] using h
      | cons bb bt =>
        cases asks with
        | nil => simpa [try_match, hb, ha] using h
        | cons ab at2 =>
          by_cases hc : ab.price ≤ bb.price
          · have hsnd : (try_match s asset).2 = { s with
                bid_books := setBook s.bid_books asset
                  (heappopRest OrderBookEntry.lt (bb :: bt)),
                ask_books := setBook s.ask_books asset
                  (heappopRest OrderBookEntry.lt (ab :: at2)) } := by
              simp [try_match, hb, ha, hc]
            rw [hsnd]
            intro other
            by_cases ho : other = asset
            · subst ho
              constructor
              · rw [getBook_setBook_self]
                have hbb := (h other).1
                rw [hb] at hbb
                simpa using ReachableBook.pop _ hbb
              · rw [getBook_setBook_self]
                have haa := (h other).2
                rw [ha] at haa
                simpa using ReachableBook.pop _ haa
            · constructor
              · rw [getBook_setBook_other _ _ _ _ (fun hx => ho hx.symm)]
                exact (h other).1
              · rw [getBook_setBook_other _ _ _ _ (fun hx => ho hx.symm)]
                exact (h other).2
          · simpa [try_match, hb, ha, hc] using h

theorem EngineReachable.books {s : AuctionState} (h : EngineReachable s) :
    GoodBooks s := by
  induction h with
  | init => exact goodBooks_init
  | add s e hr ih => exact goodBooks_add_intent s e ih
  | load s intents hr ih => exact goodBooks_load s intents ih
  | step s asset hr ih => exact goodBooks_try_match s asset ih

/-- C5 counterexample: with two bids at the same price 100 — "T1"
created at time 2, "T2" created at time 1 — and a crossing ask, the
matched bid is "T1", the LATER-created one: `OrderBookEntry.__lt__`
never consults `created_at`, so price ties are not broken by earliest
timestamp. -/
theorem tie_not_broken_by_created_at :
    ((try_match (add_intent (add_intent (add_intent initState
        ⟨"T1", "p1", 100, 1, IntentType.BID, 2, "BTC", "m1"⟩)
        ⟨"T2", "p2", 100, 1, IntentType.BID, 1, "BTC", "m2"⟩)
        ⟨"TA", "p3", 90, 1, IntentType.ASK, 3, "BTC", "m3"⟩)
        "BTC").1).map (fun m => m.1.intent_id) = some "T1" ∧
    (⟨"T2", "p2", 100, 1, IntentType.BID, 1, "BTC", "m2"⟩ : OrderBookEntry)
      ∈ (getBook (add_intent (add_intent (add_intent initState
        ⟨"T1", "p1", 100, 1, IntentType.BID, 2, "BTC", "m1"⟩)
        ⟨"T2", "p2", 100, 1, IntentType.BID, 1, "BTC", "m2"⟩)
        ⟨"TA", "p3", 90, 1, IntentType.ASK, 3, "BTC", "m3"⟩).bid_books
        "BTC").getD [] ∧
    (1 : Int) < 2 := by
  refine ⟨?_, ?_, by norm_num⟩
  · simp [try_match, add_intent, initState, getBook, setBook, heappush,
      siftdownLoop, heappopRest, heappop, siftupLoop, OrderBookEntry.lt,
      Int.fdiv]
  · simp [add_intent, initState, getBook, setBook, heappush,
      siftdownLoop, OrderBookEntry.lt]

/-- C5 (amended): in every engine-reachable state the bid container
always yields a highest-priced entry first and the ask container a
lowest-priced entry first; ties on price are broken by heap layout, not
by `created_at`.  In particular, with bids at 9800 and 10000 and one
ask at 9900 the matched bid is the one priced 10000, never 9800. -/
theorem priority_highest_price_first (s : AuctionState) (asset : String)
    (hs : EngineReachable s) :
    (∀ e rest, getBook s.bid_books asset = some (e :: rest) →
      ∀ y ∈ e :: rest, y.price ≤ e.price) ∧
    (∀ e rest, getBook s.ask_books asset = some (e :: rest) →
      ∀ y ∈ e :: rest, e.price ≤ y.price) ∧
    ((try_match (add_intent (add_intent (add_intent initState
        ⟨"B-lo", "p1", 9800, 1, IntentType.BID, 1, "BTC", "m1"⟩)
        ⟨"B-hi", "p2", 10000, 1, IntentType.BID, 2, "BTC", "m2"⟩)
        ⟨"A-mid", "p3", 9900, 1, IntentType.ASK, 3, "BTC", "m3"⟩)
        "BTC").1).map (fun m => m.1.price) = some 10000 := by
  obtain ⟨hbid, hask⟩ := hs.books asset
  refine ⟨?_, ?_, ?_⟩
  · intro e rest hcons
    rw [hcons] at hbid
    exact reachable_bid_head_max e rest (by simpa using hbid)
  · intro e rest hcons
    rw [hcons] at hask
    exact reachable_ask_head_min e rest (by simpa using hask)
  · simp [try_match, add_intent, initState, getBook, setBook, heappush,
      siftdownLoop, heappopRest, heappop, siftupLoop, OrderBookEntry.lt,
      Int.fdiv]

/-- C5 witness: the amended theorem applied to the concrete reachable
state holding one bid (price 42). -/
theorem priority_highest_price_first_witness :
    (∀ y ∈ [(⟨"W", "w", 42, 1, IntentType.BID, 0, "BTC", "m"⟩ :
        OrderBookEntry)],
      y.price ≤ (42 : Int)) ∧
    ((try_match (add_intent (add_intent (add_intent initState
        ⟨"B-lo", "p1", 9800, 1, IntentType.BID, 1, "BTC", "m1"⟩)
        ⟨"B-hi", "p2", 10000, 1, IntentType.BID, 2, "BTC", "m2"⟩)
        ⟨"A-mid", "p3", 9900, 1, IntentType.ASK, 3, "BTC", "m3"⟩)
        "BTC").1).map (fun m => m.1.price) = some 10000 := by
  have hreach : EngineReachable (add_intent initState
      ⟨"W", "w", 42, 1, IntentType.BID, 0, "BTC", "m"⟩) :=
    EngineReachable.add _ _ EngineReachable.init
  have h := priority_highest_price_first (add_intent initState
    ⟨"W", "w", 42, 1, IntentType.BID, 0, "BTC", "m"⟩) "BTC" hreach
  refine ⟨?_, h.2.2⟩
  have h2 := h.1 ⟨"W", "w", 42, 1, IntentType.BID, 0, "BTC", "m"⟩ []
    (by simp [add_intent, initState, getBook, setBook, heappush,
      siftdownLoop])
  simpa using h2
